import Mathlib

/-!
Shallow embedding of `src/sequences_mt.cpp` (quanteda collocation scoring).

Modelling conventions:
* C++ `unsigned int` token ids and `std::size_t` indices become `ℕ`;
  `int` counters become `ℤ`; `std::size_t` subtraction, which wraps
  modulo `2 ^ 64`, is modelled by `usub64`.
* `double` accumulation of half-integer values (the contingency vector:
  a 0.5 prior plus integer counts) is exact in floating point for all
  realistic magnitudes, so the vector is modelled over `ℚ`; the
  transcendental estimators (`sqrt`, `log`) are modelled over `ℝ`.
* `std::unordered_map<Ngram, int>` is modelled as an association list in
  insertion order (the map's iteration order is unspecified in C++; every
  claim settled below is order independent or is stated through the
  order-independent lookup `tabCount`).
* The `while`/`for` loops with data-dependent jumps are modelled with an
  explicit fuel counter (`countsLoop`); the fuel given by the callers is
  an upper bound on the iteration count, so the encoding is exact.
-/

set_option maxHeartbeats 1000000

namespace Quanteda

/-- `std::size_t` subtraction `a - b`, which wraps modulo `2 ^ 64`.
Faithful for all `a b < 2 ^ 64`. -/
def usub64 (a b : ℕ) : ℕ := (2 ^ 64 + a - b) % 2 ^ 64

/-- Embedding of `match_bit2`: positional comparison of two token
sequences, accumulating `2 ^ i` for every position `i` (below both
lengths) where the tokens agree.  The C++ `int` accumulator is modelled
by `ℕ` (the sum is nonnegative and small for real ngram lengths). -/
def match_bit2 (tokens1 tokens2 : List ℕ) : ℕ :=
  (List.range (min tokens1.length tokens2.length)).foldl
    (fun bit i => if tokens1.getD i 0 = tokens2.getD i 0 then bit + 2 ^ i else bit) 0

/-- Embedding of `bitCount`: number of set bits, by the C++ loop
`counter += n % 2; n >>= 1`. -/
def bitCount (n : ℕ) : ℕ :=
  if n = 0 then 0 else n % 2 + bitCount (n / 2)
  decreasing_by exact Nat.div_lt_self (Nat.pos_of_ne_zero (by assumption)) (by norm_num)

/-- The number of set bits as the specification states it: the sum of
the base-2 digits (used to compare `bitCount` with the spec's
`popcount`). -/
def popcountSpec (b : ℕ) : ℕ := (Nat.digits 2 b).sum

/-- Embedding of `sigma_uni` (unigram-subtuples standard error).
`std::pow(ntokens - 1, 2)` computes the wrapped `size_t` difference. -/
noncomputable def sigma_uni (counts : List ℝ) (ntokens : ℕ) : ℝ :=
  Real.sqrt
    ((List.range ntokens).foldl (fun s b => s + 1 / counts.getD (2 ^ b) 0)
        (((usub64 ntokens 1 : ℕ) : ℝ) ^ 2 / counts.getD 0 0)
      + 1 / counts.getD (2 ^ ntokens - 1) 0)

/-- Embedding of `lambda_uni` (unigram-subtuples association score). -/
noncomputable def lambda_uni (counts : List ℝ) (ntokens : ℕ) : ℝ :=
  (List.range ntokens).foldl (fun l b => l - Real.log (counts.getD (2 ^ b) 0))
      (Real.log (counts.getD 0 0) * ((usub64 ntokens 1 : ℕ) : ℝ))
    + Real.log (counts.getD (2 ^ ntokens - 1) 0)

/-- Embedding of `sigma_all` (all-subtuples standard error); the loop
bound is the vector's own size, as in the C++. -/
noncomputable def sigma_all (counts : List ℝ) : ℝ :=
  Real.sqrt ((List.range counts.length).foldl (fun s b => s + 1 / counts.getD b 0) 0)

/-- Embedding of `lambda_all` (all-subtuples association score);
`std::pow(-1, ntokens - bitCount(b))` uses wrapped `size_t` subtraction. -/
noncomputable def lambda_all (counts : List ℝ) (ntokens : ℕ) : ℝ :=
  (List.range counts.length).foldl
    (fun l b => l + (-1 : ℝ) ^ (usub64 ntokens (bitCount b)) * Real.log (counts.getD b 0)) 0

/-- The frequency table `MapNgrams`, modelled as an association list in
insertion order. -/
abbrev FreqTab := List (List ℕ × ℕ)

/-- `counts_seq[tokens_seq]++`: bump the count of a key, inserting it
with count 1 when absent. -/
def tabIncr (m : FreqTab) (k : List ℕ) : FreqTab :=
  match m with
  | [] => [(k, 1)]
  | (k', c) :: rest => if k' = k then (k', c + 1) :: rest else (k', c) :: tabIncr rest k

/-- Lookup of a key's count (0 when absent). -/
def tabCount (m : FreqTab) (k : List ℕ) : ℕ :=
  match m with
  | [] => 0
  | (k', c) :: rest => if k' = k then c else tabCount rest k

/-- The token run collected by the inner loop of `counts` starting at
position `i` of the padded text: tokens are pushed while they are
nonzero and the window length stays below `len_max`. -/
def extractRun (padded : List ℕ) (i len_max : ℕ) : List ℕ :=
  ((padded.drop i).takeWhile (fun t => t ≠ 0)).take len_max

/-- The double loop of `counts`.  At start position `i` the inner loop
collects `extractRun padded i len_max`, counts it when it is at least
`len_min` long, and (the inner loop always ends in the `break` at the
first position `j = i + run length` that is a boundary or exceeds the
window) resumes at `i + 1` when `nested`, else at `j + 1` after `i = j`
and the outer increment.  `fuel` bounds the iteration count; the outer
index strictly increases, so `padded.length` iterations always suffice. -/
def countsLoop (padded : List ℕ) (len_min len_max : ℕ) (nested : Bool) :
    ℕ → ℕ → FreqTab → FreqTab
  | 0, _, m => m
  | fuel + 1, i, m =>
    if i < padded.length then
      countsLoop padded len_min len_max nested fuel
        (if nested then i + 1 else i + (extractRun padded i len_max).length + 1)
        (if len_min ≤ (extractRun padded i len_max).length
          then tabIncr m (extractRun padded i len_max) else m)
    else m

/-- Embedding of `counts`: empty texts are a no-op; otherwise the text is
padded with one trailing boundary token and scanned. -/
def counts (text : List ℕ) (counts_seq : FreqTab) (len_min len_max : ℕ) (nested : Bool) :
    FreqTab :=
  if text = [] then counts_seq
  else countsLoop (text ++ [0]) len_min len_max nested (text ++ [0]).length 0 counts_seq

/-- Phase 1 of `qatd_cpp_sequences`: run `counts` over every text of the
corpus (the serial branch; the TBB branch merges identically). -/
def corpusCounts (texts : List (List ℕ)) (len_min len_max : ℕ) (nested : Bool) : FreqTab :=
  texts.foldl (fun m t => counts t m len_min len_max nested) []

/-- The contingency vector built by `estimates` for candidate `i`:
`2 ^ n` entries initialised to the 0.5 smoothing prior, one pass adding
`cs[j]` at index `match_bit2(seqs[i], seqs[j])` for every `j ≠ i`, then
the self-match correction `cs[i] - 1` at the all-ones index. -/
def countsBitVec (seqs : List (List ℕ)) (cs : List ℤ) (i : ℕ) : List ℚ :=
  let init : List ℚ := List.replicate (2 ^ (seqs.getD i []).length) (1 / 2)
  let after :=
    (List.range seqs.length).foldl
      (fun v j =>
        if j = i then v
        else
          let bit := match_bit2 (seqs.getD i []) (seqs.getD j [])
          v.set bit (v.getD bit 0 + (cs.getD j 0 : ℚ)))
      init
  after.set (2 ^ (seqs.getD i []).length - 1)
    (after.getD (2 ^ (seqs.getD i []).length - 1) 0 + ((cs.getD i 0 : ℚ) - 1))

/-- Embedding of `estimates` for one candidate index: `none` models the
early returns (single words and counts below `count_min`), which leave
the caller's output slots untouched; otherwise the selected estimator
pair is produced from the contingency vector. -/
noncomputable def estimates (seqs : List (List ℕ)) (cs : List ℤ) (i : ℕ)
    (method : String) (count_min : ℤ) : Option (ℝ × ℝ) :=
  if (seqs.getD i []).length = 1 then none
  else if cs.getD i 0 < count_min then none
  else if method = "unigram" then
    some (sigma_uni ((countsBitVec seqs cs i).map (fun q : ℚ => (q : ℝ)))
        (seqs.getD i []).length,
      lambda_uni ((countsBitVec seqs cs i).map (fun q : ℚ => (q : ℝ)))
        (seqs.getD i []).length)
  else
    some (sigma_all ((countsBitVec seqs cs i).map (fun q : ℚ => (q : ℝ))),
      lambda_all ((countsBitVec seqs cs i).map (fun q : ℚ => (q : ℝ)))
        (seqs.getD i []).length)

/-- Phase 2 of `qatd_cpp_sequences`: the zero-initialised `ss`/`ls`
vectors, each slot written only by its own candidate's `estimates` call
and left at its initial value when that call skips. -/
noncomputable def runEstimates (seqs : List (List ℕ)) (cs : List ℤ)
    (method : String) (count_min : ℤ) : List ℝ × List ℝ :=
  (List.range seqs.length).foldl
    (fun p i =>
      match estimates seqs cs i method count_min with
      | none => p
      | some sl => (p.1.set i sl.1, p.2.set i sl.2))
    (List.replicate seqs.length 0, List.replicate seqs.length 0)

/-- The columns of the returned `DataFrame`. -/
structure SeqOutput where
  collocation : List (List ℕ)
  count : List ℤ
  length : List ℕ
  lambda : List ℝ
  sigma : List ℝ

/-- Flattening of the frequency table into parallel columns, as in the
`counts_seq` iteration of the driver. -/
def phase1 (texts : List (List ℕ)) (len_min len_max : ℕ) (nested : Bool) :
    List (List ℕ) × List ℤ × List ℕ :=
  ((corpusCounts texts len_min len_max nested).map Prod.fst,
    (corpusCounts texts len_min len_max nested).map (fun p => (p.2 : ℤ)),
    (corpusCounts texts len_min len_max nested).map (fun p => p.1.length))

/-- Embedding of the driver `qatd_cpp_sequences`: count, flatten,
estimate, and emit the columns.  Note the C++ performs no validation of
`len_min`/`len_max` and has no error path. -/
noncomputable def qatd_cpp_sequences (texts : List (List ℕ)) (count_min : ℕ)
    (len_min len_max : ℕ) (method : String) (nested : Bool) : SeqOutput :=
  { collocation := (phase1 texts len_min len_max nested).1
    count := (phase1 texts len_min len_max nested).2.1
    length := (phase1 texts len_min len_max nested).2.2
    lambda := (runEstimates (phase1 texts len_min len_max nested).1
        (phase1 texts len_min len_max nested).2.1 method (count_min : ℤ)).2
    sigma := (runEstimates (phase1 texts len_min len_max nested).1
        (phase1 texts len_min len_max nested).2.1 method (count_min : ℤ)).1 }

end Quanteda

namespace Quanteda

/-! ### Generic loop lemmas -/

theorem foldl_add_eq {M : Type*} [AddCommMonoid M] (g : ℕ → M) :
    ∀ (l : List ℕ) (a : M), l.foldl (fun s x => s + g x) a = a + (l.map g).sum
  | [], a => by simp
  | x :: xs, a => by
    simp only [List.foldl_cons, List.map_cons, List.sum_cons]
    rw [foldl_add_eq g xs (a + g x), add_assoc]

theorem foldl_ite_add_eq {M : Type*} [AddCommMonoid M] (p : ℕ → Prop) [DecidablePred p]
    (g : ℕ → M) :
    ∀ (l : List ℕ) (a : M),
      l.foldl (fun s x => if p x then s + g x else s) a
        = a + (l.map (fun x => if p x then g x else 0)).sum
  | [], a => by simp
  | x :: xs, a => by
    simp only [List.foldl_cons, List.map_cons, List.sum_cons]
    by_cases h : p x
    · rw [if_pos h, if_pos h, foldl_ite_add_eq p g xs (a + g x), add_assoc]
    · rw [if_neg h, if_neg h, foldl_ite_add_eq p g xs a, zero_add]

theorem sum_map_range {M : Type*} [AddCommMonoid M] (g : ℕ → M) (n : ℕ) :
    ((List.range n).map g).sum = ∑ b in Finset.range n, g b := by
  induction n with
  | zero => simp
  | succ n ih =>
    rw [List.range_succ, List.map_append, List.sum_append, ih, Finset.sum_range_succ]
    simp

theorem usub64_eq {a b : ℕ} (hb : b ≤ a) (ha : a < 2 ^ 64) : usub64 a b = a - b := by
  have h64 : (2 : ℕ) ^ 64 = 18446744073709551616 := by norm_num
  unfold usub64
  omega

theorem sum_two_pow_range (n : ℕ) : ∑ i in Finset.range n, 2 ^ i = 2 ^ n - 1 := by
  induction n with
  | zero => simp
  | succ n ih =>
    have h1 : 1 ≤ 2 ^ n := Nat.one_le_two_pow
    have h2 : (2 : ℕ) ^ (n + 1) = 2 ^ n * 2 := pow_succ 2 n
    rw [Finset.sum_range_succ, ih]
    omega

/-! ### The Bit Comparator -/

theorem match_bit2_eq_sum (t1 t2 : List ℕ) :
    match_bit2 t1 t2
      = ∑ i in (Finset.range (min t1.length t2.length)).filter
          (fun i => t1.getD i 0 = t2.getD i 0), 2 ^ i := by
  unfold match_bit2
  rw [foldl_ite_add_eq (fun i => t1.getD i 0 = t2.getD i 0) (fun i => 2 ^ i),
    sum_map_range, zero_add, Finset.sum_filter]

theorem match_bit2_lt_two_pow (t1 t2 : List ℕ) : match_bit2 t1 t2 < 2 ^ t1.length := by
  rw [match_bit2_eq_sum]
  have hsub : ∑ i in (Finset.range (min t1.length t2.length)).filter
      (fun i => t1.getD i 0 = t2.getD i 0), 2 ^ i
      ≤ ∑ i in Finset.range (min t1.length t2.length), 2 ^ i := by
    apply Finset.sum_le_sum_of_subset (Finset.filter_subset _ _)
  have hmin : (2 : ℕ) ^ min t1.length t2.length ≤ 2 ^ t1.length :=
    Nat.pow_le_pow_right (by norm_num) (min_le_left _ _)
  have hone : 1 ≤ (2 : ℕ) ^ min t1.length t2.length := Nat.one_le_two_pow
  rw [sum_two_pow_range] at hsub
  omega

/-- Claim C5: `match_bit2` returns exactly the sum of `2 ^ i` over the
positions `i` smaller than both lengths at which the two sequences hold
equal tokens (bit 0 = first position); positions beyond the shorter
length contribute nothing.  As a Lean function of its two arguments it
is pure by construction. -/
theorem match_bit2_is_positional_bitmask (t1 t2 : List ℕ) :
    match_bit2 t1 t2
      = ∑ i in (Finset.range (min t1.length t2.length)).filter
          (fun i => t1.getD i 0 = t2.getD i 0), 2 ^ i :=
  match_bit2_eq_sum t1 t2

/-- Claim C10: the positional match bitmask is symmetric in its two
arguments, so comparing candidate `i` against candidate `j` yields the
same bucket index as comparing `j` against `i`. -/
theorem match_bit2_comm (t1 t2 : List ℕ) : match_bit2 t1 t2 = match_bit2 t2 t1 := by
  rw [match_bit2_eq_sum, match_bit2_eq_sum, min_comm t2.length t1.length]
  exact Finset.sum_congr
    (Finset.filter_congr (fun x _ => by rw [eq_comm])) (fun _ _ => rfl)

end Quanteda

namespace Quanteda

/-! ### List access helpers -/

theorem getD_set_ne {α : Type*} (l : List α) {m n : ℕ} (h : m ≠ n) (a d : α) :
    (l.set m a).getD n d = l.getD n d := by
  rw [List.getD_eq_getD_get?, List.getD_eq_getD_get?, List.get?_set_ne a l h]

theorem getD_set_eq_of_lt {α : Type*} (l : List α) {n : ℕ} (h : n < l.length) (a d : α) :
    (l.set n a).getD n d = a := by
  rw [List.getD_eq_getD_get?, List.get?_set_eq_of_lt a h, Option.getD_some]

theorem getD_replicate_lt {α : Type*} {n i : ℕ} (h : i < n) (a d : α) :
    (List.replicate n a).getD i d = a := by
  rw [List.getD_eq_getElem _ _ (by simpa using h)]
  simp

theorem getD_map_cast (l : List ℚ) (b : ℕ) :
    (l.map (fun q : ℚ => (q : ℝ))).getD b 0 = ((l.getD b 0 : ℚ) : ℝ) := by
  rw [show (0 : ℝ) = ((0 : ℚ) : ℝ) by norm_num]
  exact List.getD_map l 0 (fun q : ℚ => (q : ℝ))

theorem getD_mem_of_lt {α : Type*} (l : List α) {n : ℕ} (h : n < l.length) (d : α) :
    l.getD n d ∈ l := by
  rw [List.getD_eq_getElem _ _ h]
  exact List.getElem_mem h

/-! ### The contingency accumulation loop of `estimates` -/

theorem cb_foldl_length (seqs : List (List ℕ)) (cs : List ℤ) (i : ℕ) :
    ∀ (l : List ℕ) (v : List ℚ),
      (l.foldl
        (fun v j =>
          if j = i then v
          else
            let bit := match_bit2 (seqs.getD i []) (seqs.getD j [])
            v.set bit (v.getD bit 0 + (cs.getD j 0 : ℚ)))
        v).length = v.length
  | [], v => rfl
  | j :: js, v => by
    rw [List.foldl_cons]
    by_cases hj : j = i
    · rw [if_pos hj]
      exact cb_foldl_length seqs cs i js v
    · rw [if_neg hj]
      rw [cb_foldl_length seqs cs i js _]
      exact List.length_set ..

theorem cb_foldl_getD (seqs : List (List ℕ)) (cs : List ℤ) (i : ℕ) :
    ∀ (l : List ℕ) (v : List ℚ) (b : ℕ), b < v.length →
      (l.foldl
        (fun v j =>
          if j = i then v
          else
            let bit := match_bit2 (seqs.getD i []) (seqs.getD j [])
            v.set bit (v.getD bit 0 + (cs.getD j 0 : ℚ)))
        v).getD b 0
      = v.getD b 0
        + (l.map (fun j =>
            if j ≠ i ∧ match_bit2 (seqs.getD i []) (seqs.getD j []) = b
            then (cs.getD j 0 : ℚ) else 0)).sum
  | [], v, b, _ => by simp
  | j :: js, v, b, hb => by
    rw [List.foldl_cons, List.map_cons, List.sum_cons]
    by_cases hj : j = i
    · rw [if_pos hj, cb_foldl_getD seqs cs i js v b hb,
        if_neg (fun h => h.1 hj), zero_add]
    · rw [if_neg hj]
      by_cases hbit : match_bit2 (seqs.getD i []) (seqs.getD j []) = b
      · rw [cb_foldl_getD seqs cs i js _ b (by rw [List.length_set]; exact hb),
          if_pos ⟨hj, hbit⟩]
        simp only [hbit]
        rw [getD_set_eq_of_lt v hb, add_assoc]
      · rw [cb_foldl_getD seqs cs i js _ b (by rw [List.length_set]; exact hb),
          if_neg (fun h => hbit h.2), zero_add, getD_set_ne v hbit]

theorem countsBitVec_length (seqs : List (List ℕ)) (cs : List ℤ) (i : ℕ) :
    (countsBitVec seqs cs i).length = 2 ^ (seqs.getD i []).length := by
  unfold countsBitVec
  rw [List.length_set, cb_foldl_length, List.length_replicate]

theorem countsBitVec_getD (seqs : List (List ℕ)) (cs : List ℤ) (i : ℕ)
    {b : ℕ} (hb : b < 2 ^ (seqs.getD i []).length) :
    (countsBitVec seqs cs i).getD b 0
      = 1 / 2
        + (∑ j in (Finset.range seqs.length).filter
            (fun j => j ≠ i ∧ match_bit2 (seqs.getD i []) (seqs.getD j []) = b),
            (cs.getD j 0 : ℚ))
        + (if b = 2 ^ (seqs.getD i []).length - 1 then (cs.getD i 0 : ℚ) - 1 else 0) := by
  have hone : 1 ≤ 2 ^ (seqs.getD i []).length := Nat.one_le_two_pow
  have hinit : (List.replicate (2 ^ (seqs.getD i []).length) ((1 : ℚ) / 2)).length
      = 2 ^ (seqs.getD i []).length := List.length_replicate ..
  have hafter :
      ∀ b' < 2 ^ (seqs.getD i []).length,
        ((List.range seqs.length).foldl
          (fun v j =>
            if j = i then v
            else
              let bit := match_bit2 (seqs.getD i []) (seqs.getD j [])
              v.set bit (v.getD bit 0 + (cs.getD j 0 : ℚ)))
          (List.replicate (2 ^ (seqs.getD i []).length) (1 / 2))).getD b' 0
        = 1 / 2
          + ∑ j in (Finset.range seqs.length).filter
              (fun j => j ≠ i ∧ match_bit2 (seqs.getD i []) (seqs.getD j []) = b'),
              (cs.getD j 0 : ℚ) := by
    intro b' hb'
    rw [cb_foldl_getD seqs cs i (List.range seqs.length) _ b' (by rw [hinit]; exact hb'),
      getD_replicate_lt hb', sum_map_range, Finset.sum_filter]
  have hlen :
      ((List.range seqs.length).foldl
        (fun v j =>
          if j = i then v
          else
            let bit := match_bit2 (seqs.getD i []) (seqs.getD j [])
            v.set bit (v.getD bit 0 + (cs.getD j 0 : ℚ)))
        (List.replicate (2 ^ (seqs.getD i []).length) (1 / 2))).length
      = 2 ^ (seqs.getD i []).length := by
    rw [cb_foldl_length, hinit]
  unfold countsBitVec
  by_cases hball : b = 2 ^ (seqs.getD i []).length - 1
  · rw [if_pos hball]
    subst hball
    rw [getD_set_eq_of_lt _ (by rw [hlen]; omega),
      hafter _ (by omega)]
  · rw [if_neg hball, getD_set_ne _ (fun h => hball h.symm), hafter b hb, add_zero]

end Quanteda

namespace Quanteda

/-! ### Closed forms of the estimator loops -/

theorem foldl_sub_eq {M : Type*} [AddCommGroup M] (g : ℕ → M) :
    ∀ (l : List ℕ) (a : M), l.foldl (fun s x => s - g x) a = a - (l.map g).sum
  | [], a => by simp
  | x :: xs, a => by
    simp only [List.foldl_cons, List.map_cons, List.sum_cons]
    rw [foldl_sub_eq g xs (a - g x), sub_sub]

theorem sigma_uni_eq (counts : List ℝ) (ntokens : ℕ) :
    sigma_uni counts ntokens
      = Real.sqrt (((usub64 ntokens 1 : ℕ) : ℝ) ^ 2 / counts.getD 0 0
          + (∑ b in Finset.range ntokens, 1 / counts.getD (2 ^ b) 0)
          + 1 / counts.getD (2 ^ ntokens - 1) 0) := by
  unfold sigma_uni
  rw [foldl_add_eq (fun b => 1 / counts.getD (2 ^ b) 0), sum_map_range]

theorem lambda_uni_eq (counts : List ℝ) (ntokens : ℕ) :
    lambda_uni counts ntokens
      = Real.log (counts.getD 0 0) * ((usub64 ntokens 1 : ℕ) : ℝ)
          - (∑ b in Finset.range ntokens, Real.log (counts.getD (2 ^ b) 0))
          + Real.log (counts.getD (2 ^ ntokens - 1) 0) := by
  unfold lambda_uni
  rw [foldl_sub_eq (fun b => Real.log (counts.getD (2 ^ b) 0)), sum_map_range]

theorem sigma_all_eq (counts : List ℝ) :
    sigma_all counts
      = Real.sqrt (∑ b in Finset.range counts.length, 1 / counts.getD b 0) := by
  unfold sigma_all
  rw [foldl_add_eq (fun b => 1 / counts.getD b 0), sum_map_range, zero_add]

theorem lambda_all_eq (counts : List ℝ) (ntokens : ℕ) :
    lambda_all counts ntokens
      = ∑ b in Finset.range counts.length,
          (-1 : ℝ) ^ (usub64 ntokens (bitCount b)) * Real.log (counts.getD b 0) := by
  unfold lambda_all
  rw [foldl_add_eq
      (fun b => (-1 : ℝ) ^ (usub64 ntokens (bitCount b)) * Real.log (counts.getD b 0)),
    sum_map_range, zero_add]

theorem bitCount_eq_popcountSpec (n : ℕ) : bitCount n = popcountSpec n := by
  induction n using Nat.strong_induction_on with
  | _ n ih =>
    unfold bitCount
    by_cases h : n = 0
    · subst h
      simp [popcountSpec]
    · rw [if_neg h, ih (n / 2) (Nat.div_lt_self (Nat.pos_of_ne_zero h) (by norm_num))]
      unfold popcountSpec
      rw [Nat.digits_def' (by norm_num : (1 : ℕ) < 2) (Nat.pos_of_ne_zero h), List.sum_cons]

theorem bitCount_le {n b : ℕ} (h : b < 2 ^ n) : bitCount b ≤ n := by
  induction n generalizing b with
  | zero =>
    have hb : b = 0 := Nat.lt_one_iff.mp (by simpa using h)
    subst hb
    unfold bitCount
    simp
  | succ n ih =>
    by_cases hb : b = 0
    · subst hb
      unfold bitCount
      simp
    · have h2 : (2 : ℕ) ^ (n + 1) = 2 ^ n * 2 := pow_succ 2 n
      have hdiv : b / 2 < 2 ^ n := by omega
      have hrec := ih hdiv
      have hmod : b % 2 ≤ 1 := by omega
      unfold bitCount
      rw [if_neg hb]
      omega

/-- Claim C4: on a contingency vector `counts` of size `2 ^ n` with all
entries positive, `sigma_uni`/`lambda_uni` compute the unigram-subtuples
closed forms and `sigma_all`/`lambda_all` the all-subtuples closed
forms, `popcount` being the number of set bits (stated here as the sum
of the base-2 digits). -/
theorem estimator_closed_forms (counts : List ℝ) (n : ℕ)
    (hn : 1 ≤ n) (hn64 : n < 2 ^ 64) (hlen : counts.length = 2 ^ n)
    (hpos : ∀ x ∈ counts, 0 < x) :
    sigma_uni counts n
      = Real.sqrt (((n - 1 : ℕ) : ℝ) ^ 2 / counts.getD 0 0
          + (∑ b in Finset.range n, 1 / counts.getD (2 ^ b) 0)
          + 1 / counts.getD (2 ^ n - 1) 0)
    ∧ lambda_uni counts n
      = ((n - 1 : ℕ) : ℝ) * Real.log (counts.getD 0 0)
          - (∑ b in Finset.range n, Real.log (counts.getD (2 ^ b) 0))
          + Real.log (counts.getD (2 ^ n - 1) 0)
    ∧ sigma_all counts = Real.sqrt (∑ b in Finset.range (2 ^ n), 1 / counts.getD b 0)
    ∧ lambda_all counts n
      = ∑ b in Finset.range (2 ^ n),
          (-1 : ℝ) ^ (n - popcountSpec b) * Real.log (counts.getD b 0) := by
  have hu : usub64 n 1 = n - 1 := usub64_eq hn hn64
  refine ⟨?_, ?_, ?_, ?_⟩
  · rw [sigma_uni_eq, hu]
  · rw [lambda_uni_eq, hu, mul_comm]
  · rw [sigma_all_eq, hlen]
  · rw [lambda_all_eq, hlen]
    apply Finset.sum_congr rfl
    intro b hbmem
    have hb : b < 2 ^ n := Finset.mem_range.mp hbmem
    rw [usub64_eq (bitCount_le hb) hn64, bitCount_eq_popcountSpec b]

/-- Witness for `estimator_closed_forms` at `counts = [1, 1]`, `n = 1`. -/
theorem estimator_closed_forms_witness :
    (1 ≤ 1 ∧ 1 < 2 ^ 64 ∧ ([(1 : ℝ), 1]).length = 2 ^ 1 ∧ ∀ x ∈ [(1 : ℝ), 1], 0 < x)
    ∧ sigma_uni [(1 : ℝ), 1] 1
        = Real.sqrt (((1 - 1 : ℕ) : ℝ) ^ 2 / ([(1 : ℝ), 1]).getD 0 0
            + (∑ b in Finset.range 1, 1 / ([(1 : ℝ), 1]).getD (2 ^ b) 0)
            + 1 / ([(1 : ℝ), 1]).getD (2 ^ 1 - 1) 0) :=
  ⟨⟨le_refl 1, by decide, by simp, by simp⟩,
    (estimator_closed_forms [(1 : ℝ), 1] 1 (le_refl 1) (by decide) (by simp) (by simp)).1⟩

end Quanteda

namespace Quanteda

/-! ### The Candidate Estimator's contingency vector (claims C3, C6) -/

/-- Claim C3: for every candidate `i` passing the filters, entry `b` of
the contingency vector equals the 0.5 smoothing prior plus the sum of
`cs[j]` over all other candidates `j ≠ i` (no length or count filter on
`j`) whose positional match bitmask against candidate `i` equals `b`,
the all-ones index `2 ^ n - 1` additionally receiving `cs[i] - 1`. -/
theorem contingency_vector_spec (seqs : List (List ℕ)) (cs : List ℤ) (i : ℕ)
    (count_min : ℤ) (hi : i < seqs.length)
    (hn : 2 ≤ (seqs.getD i []).length)
    (hc : count_min ≤ cs.getD i 0) :
    ∀ b < 2 ^ (seqs.getD i []).length,
      (countsBitVec seqs cs i).getD b 0
        = 1 / 2
          + (∑ j in (Finset.range seqs.length).filter
              (fun j => j ≠ i ∧ match_bit2 (seqs.getD i []) (seqs.getD j []) = b),
              (cs.getD j 0 : ℚ))
          + (if b = 2 ^ (seqs.getD i []).length - 1 then (cs.getD i 0 : ℚ) - 1 else 0) :=
  fun _ hb => countsBitVec_getD seqs cs i hb

/-- Witness for `contingency_vector_spec` at
`seqs = [[1,2],[1,3],[2,3]]`, `cs = [2,1,1]`, `i = 0`, `count_min = 1`. -/
theorem contingency_vector_spec_witness :
    (0 < ([[1, 2], [1, 3], [2, 3]] : List (List ℕ)).length
      ∧ 2 ≤ (([[1, 2], [1, 3], [2, 3]] : List (List ℕ)).getD 0 []).length
      ∧ (1 : ℤ) ≤ ([2, 1, 1] : List ℤ).getD 0 0)
    ∧ ∀ b < 2 ^ (([[1, 2], [1, 3], [2, 3]] : List (List ℕ)).getD 0 []).length,
        (countsBitVec [[1, 2], [1, 3], [2, 3]] [2, 1, 1] 0).getD b 0
          = 1 / 2
            + (∑ j in (Finset.range ([[1, 2], [1, 3], [2, 3]] : List (List ℕ)).length).filter
                (fun j => j ≠ 0
                  ∧ match_bit2 (([[1, 2], [1, 3], [2, 3]] : List (List ℕ)).getD 0 [])
                      (([[1, 2], [1, 3], [2, 3]] : List (List ℕ)).getD j []) = b),
                (([2, 1, 1] : List ℤ).getD j 0 : ℚ))
            + (if b = 2 ^ (([[1, 2], [1, 3], [2, 3]] : List (List ℕ)).getD 0 []).length - 1
                then (([2, 1, 1] : List ℤ).getD 0 0 : ℚ) - 1 else 0) :=
  ⟨⟨by decide, by decide, by decide⟩,
    contingency_vector_spec [[1, 2], [1, 3], [2, 3]] [2, 1, 1] 0 1
      (by decide) (by decide) (by decide)⟩

theorem csD_nonneg (cs : List ℤ) (hnn : ∀ c ∈ cs, 0 ≤ c) (j : ℕ) : (0 : ℤ) ≤ cs.getD j 0 := by
  by_cases hj : j < cs.length
  · exact hnn _ (getD_mem_of_lt cs hj 0)
  · rw [List.getD_eq_default _ _ (le_of_not_lt hj)]

theorem countsBitVec_entry_pos (seqs : List (List ℕ)) (cs : List ℤ) (i : ℕ)
    (hnn : ∀ c ∈ cs, 0 ≤ c) (h1 : 1 ≤ cs.getD i 0) :
    ∀ b < 2 ^ (seqs.getD i []).length, 0 < (countsBitVec seqs cs i).getD b 0 := by
  intro b hb
  rw [countsBitVec_getD seqs cs i hb]
  have hsum : (0 : ℚ) ≤ ∑ j in (Finset.range seqs.length).filter
      (fun j => j ≠ i ∧ match_bit2 (seqs.getD i []) (seqs.getD j []) = b),
      (cs.getD j 0 : ℚ) := by
    apply Finset.sum_nonneg
    intro j _
    exact_mod_cast csD_nonneg cs hnn j
  have hite : (0 : ℚ) ≤
      if b = 2 ^ (seqs.getD i []).length - 1 then (cs.getD i 0 : ℚ) - 1 else 0 := by
    split
    · have h1' : (1 : ℚ) ≤ (cs.getD i 0 : ℚ) := by exact_mod_cast h1
      linarith
    · exact le_refl 0
  linarith

theorem castVec_entry_pos (seqs : List (List ℕ)) (cs : List ℤ) (i : ℕ)
    (hnn : ∀ c ∈ cs, 0 ≤ c) (h1 : 1 ≤ cs.getD i 0) :
    ∀ b < 2 ^ (seqs.getD i []).length,
      0 < ((countsBitVec seqs cs i).map (fun q : ℚ => (q : ℝ))).getD b 0 := by
  intro b hb
  rw [getD_map_cast]
  exact_mod_cast countsBitVec_entry_pos seqs cs i hnn h1 b hb

/-- Claim C6: whenever `estimates` reaches a statistic estimator for
candidate `i` (length at least 2, count at least `count_min`, all counts
nonnegative, own count at least 1), every contingency entry passed on is
strictly positive, and under that positivity both `sigma` variants are
strictly positive real numbers (in this real-valued embedding a genuine
positive square root; the `lambda` variants are then likewise
well-defined finite reals, every real being finite). -/
theorem estimator_inputs_positive (seqs : List (List ℕ)) (cs : List ℤ) (i : ℕ)
    (count_min : ℤ)
    (hn : 2 ≤ (seqs.getD i []).length)
    (hc : count_min ≤ cs.getD i 0)
    (hnn : ∀ c ∈ cs, 0 ≤ c)
    (h1 : 1 ≤ cs.getD i 0) :
    (∀ b < 2 ^ (seqs.getD i []).length, 0 < (countsBitVec seqs cs i).getD b 0)
    ∧ 0 < sigma_uni ((countsBitVec seqs cs i).map (fun q : ℚ => (q : ℝ)))
        (seqs.getD i []).length
    ∧ 0 < sigma_all ((countsBitVec seqs cs i).map (fun q : ℚ => (q : ℝ))) := by
  have hpos := castVec_entry_pos seqs cs i hnn h1
  have htwo : 0 < 2 ^ (seqs.getD i []).length := Nat.pos_pow_of_pos _ (by norm_num)
  refine ⟨countsBitVec_entry_pos seqs cs i hnn h1, ?_, ?_⟩
  · rw [sigma_uni_eq]
    apply Real.sqrt_pos.mpr
    have hA : (0 : ℝ) ≤ ((usub64 (seqs.getD i []).length 1 : ℕ) : ℝ) ^ 2
        / ((countsBitVec seqs cs i).map (fun q : ℚ => (q : ℝ))).getD 0 0 :=
      div_nonneg (sq_nonneg _) (le_of_lt (hpos 0 htwo))
    have hB : (0 : ℝ) ≤ ∑ b in Finset.range (seqs.getD i []).length,
        1 / ((countsBitVec seqs cs i).map (fun q : ℚ => (q : ℝ))).getD (2 ^ b) 0 := by
      apply Finset.sum_nonneg
      intro b hbmem
      have hblt : 2 ^ b < 2 ^ (seqs.getD i []).length :=
        Nat.pow_lt_pow_right (by norm_num) (Finset.mem_range.mp hbmem)
      exact le_of_lt (one_div_pos.mpr (hpos _ hblt))
    have hD : (0 : ℝ) < 1
        / ((countsBitVec seqs cs i).map (fun q : ℚ => (q : ℝ))).getD
            (2 ^ (seqs.getD i []).length - 1) 0 :=
      one_div_pos.mpr (hpos _ (by omega))
    linarith
  · rw [sigma_all_eq]
    apply Real.sqrt_pos.mpr
    have hlen : ((countsBitVec seqs cs i).map (fun q : ℚ => (q : ℝ))).length
        = 2 ^ (seqs.getD i []).length := by
      rw [List.length_map, countsBitVec_length]
    rw [hlen]
    apply Finset.sum_pos
    · intro b hbmem
      exact one_div_pos.mpr (hpos b (Finset.mem_range.mp hbmem))
    · exact Finset.nonempty_range_iff.mpr (by omega)

/-- Witness for `estimator_inputs_positive` at
`seqs = [[1,2],[1,3],[2,3]]`, `cs = [2,1,1]`, `i = 1`, `count_min = 1`. -/
theorem estimator_inputs_positive_witness :
    (2 ≤ (([[1, 2], [1, 3], [2, 3]] : List (List ℕ)).getD 1 []).length
      ∧ (1 : ℤ) ≤ ([2, 1, 1] : List ℤ).getD 1 0
      ∧ (∀ c ∈ ([2, 1, 1] : List ℤ), 0 ≤ c))
    ∧ (∀ b < 2 ^ (([[1, 2], [1, 3], [2, 3]] : List (List ℕ)).getD 1 []).length,
        0 < (countsBitVec [[1, 2], [1, 3], [2, 3]] [2, 1, 1] 1).getD b 0)
    ∧ 0 < sigma_uni
        ((countsBitVec [[1, 2], [1, 3], [2, 3]] [2, 1, 1] 1).map (fun q : ℚ => (q : ℝ)))
        (([[1, 2], [1, 3], [2, 3]] : List (List ℕ)).getD 1 []).length
    ∧ 0 < sigma_all
        ((countsBitVec [[1, 2], [1, 3], [2, 3]] [2, 1, 1] 1).map (fun q : ℚ => (q : ℝ))) :=
  ⟨⟨by decide, by decide, by decide⟩,
    (estimator_inputs_positive [[1, 2], [1, 3], [2, 3]] [2, 1, 1] 1 1
      (by decide) (by decide) (by decide) (by decide)).1,
    (estimator_inputs_positive [[1, 2], [1, 3], [2, 3]] [2, 1, 1] 1 1
      (by decide) (by decide) (by decide) (by decide)).2.1,
    (estimator_inputs_positive [[1, 2], [1, 3], [2, 3]] [2, 1, 1] 1 1
      (by decide) (by decide) (by decide) (by decide)).2.2⟩

end Quanteda

namespace Quanteda

/-! ### The Sequence Counter (claims C1, C2, C7, C9) -/

theorem tabCount_tabIncr (m : FreqTab) (k0 k : List ℕ) :
    tabCount (tabIncr m k0) k = tabCount m k + if k = k0 then 1 else 0 := by
  induction m with
  | nil =>
    rcases eq_or_ne k0 k with h | h
    · subst h
      simp [tabIncr, tabCount]
    · simp [tabIncr, tabCount, h, (Ne.symm h)]
  | cons hd rest ih =>
    obtain ⟨k', c⟩ := hd
    rcases eq_or_ne k' k0 with h0 | h0
    · subst h0
      rcases eq_or_ne k' k with h1 | h1
      · subst h1
        simp [tabIncr, tabCount]
      · have hkk0 : k ≠ k' := Ne.symm h1
        simp [tabIncr, tabCount, h1, hkk0]
    · rcases eq_or_ne k' k with h1 | h1
      · subst h1
        have hkk0 : k' ≠ k0 := h0
        simp [tabIncr, tabCount, hkk0]
      · simp [tabIncr, tabCount, h0, h1, ih]

theorem extractRun_length_le (padded : List ℕ) (i len_max : ℕ) :
    (extractRun padded i len_max).length ≤ len_max := by
  unfold extractRun
  rw [List.length_take]
  exact min_le_left _ _

theorem extractRun_no_zero (padded : List ℕ) (i len_max : ℕ) :
    ∀ x ∈ extractRun padded i len_max, x ≠ 0 := by
  intro x hx
  have hx' : x ∈ (padded.drop i).takeWhile (fun t => t ≠ 0) := List.mem_of_mem_take hx
  have hp := List.mem_takeWhile_imp hx'
  simpa using hp

theorem takeWhile_ne_zero_append_zero (u : List ℕ) :
    (u ++ [0]).takeWhile (fun t => t ≠ 0) = u.takeWhile (fun t => t ≠ 0) := by
  induction u with
  | nil => simp
  | cons x xs ih =>
    by_cases hx : x = 0
    · subst hx
      simp
    · simp only [List.cons_append, List.takeWhile_cons]
      rw [if_pos (by simpa using hx), if_pos (by simpa using hx), ih]

theorem extractRun_infix (text : List ℕ) (i len_max : ℕ) (hi : i ≤ text.length) :
    extractRun (text ++ [0]) i len_max <:+: text := by
  unfold extractRun
  rw [List.drop_append_of_le_length hi, takeWhile_ne_zero_append_zero]
  have h1 : ((text.drop i).takeWhile (fun t => t ≠ 0)).take len_max <+: text.drop i :=
    ( List.take_prefix _ _).trans ( List.takeWhile_prefix _)
  exact List.IsInfix.trans ( List.IsPrefix.isInfix h1) ( List.IsSuffix.isInfix (List.drop_suffix i text))

theorem countsLoop_new_key (padded : List ℕ) (len_min len_max : ℕ) (nested : Bool) :
    ∀ (fuel i : ℕ) (m : FreqTab) (k : List ℕ),
      tabCount (countsLoop padded len_min len_max nested fuel i m) k ≠ tabCount m k →
      ∃ i', i' < padded.length ∧ k = extractRun padded i' len_max ∧ len_min ≤ k.length
  | 0, i, m, k => fun h => absurd rfl h
  | fuel + 1, i, m, k => by
    intro h
    unfold countsLoop at h
    by_cases hi : i < padded.length
    · rw [if_pos hi] at h
      by_cases hcnt : len_min ≤ (extractRun padded i len_max).length
      · rw [if_pos hcnt] at h
        by_cases hrest :
            tabCount
              (countsLoop padded len_min len_max nested fuel
                (if nested then i + 1 else i + (extractRun padded i len_max).length + 1)
                (tabIncr m (extractRun padded i len_max))) k
            = tabCount (tabIncr m (extractRun padded i len_max)) k
        · rw [hrest, tabCount_tabIncr] at h
          have hk : k = extractRun padded i len_max := by
            by_contra hne
            rw [if_neg hne] at h
            omega
          exact ⟨i, hi, hk, by rw [hk]; exact hcnt⟩
        · exact countsLoop_new_key padded len_min len_max nested fuel _ _ k hrest
      · rw [if_neg hcnt] at h
        exact countsLoop_new_key padded len_min len_max nested fuel _ _ k h
    · rw [if_neg hi] at h
      exact absurd rfl h

/-- Claim C9: every key whose count the Sequence Counter changes is free
of the boundary token 0 and is a contiguous run (an infix) of the text;
no counted sequence spans a boundary. -/
theorem counted_keys_boundary_free_infix (text : List ℕ) (m : FreqTab)
    (len_min len_max : ℕ) (nested : Bool) (k : List ℕ)
    (h : tabCount (counts text m len_min len_max nested) k ≠ tabCount m k) :
    (∀ x ∈ k, x ≠ 0) ∧ k <:+: text := by
  unfold counts at h
  by_cases htext : text = []
  · rw [if_pos htext] at h
    exact absurd rfl h
  · rw [if_neg htext] at h
    obtain ⟨i', hi', hk, _⟩ :=
      countsLoop_new_key (text ++ [0]) len_min len_max nested _ 0 m k h
    subst hk
    refine ⟨extractRun_no_zero _ _ _, ?_⟩
    apply extractRun_infix
    have hlen : (text ++ [0]).length = text.length + 1 := by simp
    omega

/-- Witness for `counted_keys_boundary_free_infix` on text `[1,2,0]`. -/
theorem counted_keys_boundary_free_infix_witness :
    tabCount (counts [1, 2, 0] [] 2 2 false) [1, 2] ≠ tabCount [] [1, 2]
    ∧ ((∀ x ∈ ([1, 2] : List ℕ), x ≠ 0) ∧ [1, 2] <:+: [1, 2, 0]) :=
  ⟨by decide, counted_keys_boundary_free_infix [1, 2, 0] [] 2 2 false [1, 2] (by decide)⟩

theorem countsLoop_id_of_bad_range (padded : List ℕ) (len_min len_max : ℕ)
    (nested : Bool) (h : len_max < len_min) :
    ∀ (fuel i : ℕ) (m : FreqTab), countsLoop padded len_min len_max nested fuel i m = m
  | 0, _, _ => rfl
  | fuel + 1, i, m => by
    unfold countsLoop
    by_cases hi : i < padded.length
    · rw [if_pos hi,
        if_neg (show ¬ len_min ≤ (extractRun padded i len_max).length by
          have := extractRun_length_le padded i len_max
          omega)]
      exact countsLoop_id_of_bad_range padded len_min len_max nested h fuel _ m
    · rw [if_neg hi]

/-- Claim C7 (amended): the driver performs no range validation and has
no error path; an input with `len_min > len_max` is processed normally,
the scan simply counting nothing because no collected run can reach
`len_min` within the `len_max` window. -/
theorem invalid_range_not_rejected (text : List ℕ) (m : FreqTab)
    (len_min len_max : ℕ) (nested : Bool) (h : len_max < len_min) :
    counts text m len_min len_max nested = m := by
  unfold counts
  by_cases htext : text = []
  · rw [if_pos htext]
  · rw [if_neg htext]
    exact countsLoop_id_of_bad_range _ _ _ _ h _ _ _

/-- Witness for `invalid_range_not_rejected` at `len_min = 2 > len_max = 1`. -/
theorem invalid_range_not_rejected_witness :
    1 < 2 ∧ counts [1, 2, 0] [] 2 1 false = [] :=
  ⟨by decide, invalid_range_not_rejected [1, 2, 0] [] 2 1 false (by decide)⟩

/-- Claim C7 counterexample: with the invalid parameters
`len_min = len_max = 0` nothing is rejected and no error is surfaced —
the counting pass runs to completion and even builds a nonempty table
(three occurrences of the empty sequence on the text `[5,0]`), which the
driver then flattens into output columns. -/
theorem no_invalid_range_rejection_counterexample :
    corpusCounts [[5, 0]] 0 0 true = [([], 3)]
    ∧ phase1 [[5, 0]] 0 0 true = ([[]], [3], [0]) :=
  ⟨by decide, by decide⟩

/-- Claim C1 counterexample: under `nested = false` the window `[2,3]`
of text `[1,2,3,0]` is never counted (frequency 0, not the claimed 1):
after the run `[1,2]` closes at the length cap, the outer scan resumes
past the capping token. -/
theorem nested_false_scenario_counterexample :
    tabCount (corpusCounts [[1, 2, 3, 0], [1, 2, 0]] 2 2 false) [2, 3] = 0 := by decide

/-- Claim C1 (amended): with `nested = false` the outer scan restarts
one past the index that closed the run (also skipping, at a length-cap
close, the nonzero token that closed it as a new start), so the corpus
of texts `[1,2,3,0]` and `[1,2,0]` with `len_min = len_max = 2` produces
exactly the table `{[1,2] : 2}`, with no entry for `[2,3]`. -/
theorem nested_false_scenario_table :
    corpusCounts [[1, 2, 3, 0], [1, 2, 0]] 2 2 false = [([1, 2], 2)] := by decide

/-- Claim C2 counterexample: under `nested = true` on text `[1,2,3,0]`
with `len_min = 2, len_max = 3` the sub-window `[1,2]` is never counted
(frequency 0): each start position contributes only its single maximal
capped window, not every shorter sub-window. -/
theorem nested_true_scenario_counterexample :
    tabCount (counts [1, 2, 3, 0] [] 2 3 true) [1, 2] = 0 := by decide

/-- Claim C2 (amended): with `nested = true` every start position is
revisited independently, but each start contributes only the single
maximal window it can reach (up to `len_max`, stopping at a boundary);
on text `[1,2,3,0]` with `len_min = 2, len_max = 3` the counted windows
are exactly `[1,2,3]` (start 0) and `[2,3]` (start 1) — not `[1,2]`. -/
theorem nested_true_scenario_table :
    counts [1, 2, 3, 0] [] 2 3 true = [([1, 2, 3], 1), ([2, 3], 1)] := by decide

end Quanteda

namespace Quanteda

/-! ### Skipped candidates keep the zero-initialised output (claim C8) -/

theorem getD_replicate_self {α : Type*} (n i : ℕ) (a : α) :
    (List.replicate n a).getD i a = a := by
  by_cases h : i < n
  · exact getD_replicate_lt h a a
  · exact List.getD_eq_default _ _ (by simpa using le_of_not_lt h)

theorem estimates_skip (seqs : List (List ℕ)) (cs : List ℤ) (i : ℕ) (method : String)
    (count_min : ℤ)
    (h : (seqs.getD i []).length = 1 ∨ cs.getD i 0 < count_min) :
    estimates seqs cs i method count_min = none := by
  unfold estimates
  rcases h with h | h
  · rw [if_pos h]
  · by_cases h1 : (seqs.getD i []).length = 1
    · rw [if_pos h1]
    · rw [if_neg h1, if_pos h]

theorem runEstimates_foldl_skip (seqs : List (List ℕ)) (cs : List ℤ) (method : String)
    (count_min : ℤ) (i : ℕ)
    (hskip : estimates seqs cs i method count_min = none) :
    ∀ (l : List ℕ) (p : List ℝ × List ℝ),
      ((l.foldl
        (fun p j =>
          match estimates seqs cs j method count_min with
          | none => p
          | some sl => (p.1.set j sl.1, p.2.set j sl.2))
        p).1.getD i 0 = p.1.getD i 0)
      ∧ ((l.foldl
        (fun p j =>
          match estimates seqs cs j method count_min with
          | none => p
          | some sl => (p.1.set j sl.1, p.2.set j sl.2))
        p).2.getD i 0 = p.2.getD i 0)
  | [], _ => ⟨rfl, rfl⟩
  | j :: js, p => by
    rw [List.foldl_cons]
    by_cases hj : j = i
    · subst hj
      simp only [hskip]
      exact runEstimates_foldl_skip seqs cs method count_min j hskip js p
    · cases hest : estimates seqs cs j method count_min with
      | none =>
        simp only [hest]
        exact runEstimates_foldl_skip seqs cs method count_min i hskip js p
      | some sl =>
        simp only [hest]
        obtain ⟨h1, h2⟩ := runEstimates_foldl_skip seqs cs method count_min i hskip js
          (p.1.set j sl.1, p.2.set j sl.2)
        exact ⟨h1.trans (getD_set_ne p.1 hj sl.1 0), h2.trans (getD_set_ne p.2 hj sl.2 0)⟩

theorem runEstimates_skip (seqs : List (List ℕ)) (cs : List ℤ) (method : String)
    (count_min : ℤ) (i : ℕ)
    (h : (seqs.getD i []).length = 1 ∨ cs.getD i 0 < count_min) :
    (runEstimates seqs cs method count_min).1.getD i 0 = 0
    ∧ (runEstimates seqs cs method count_min).2.getD i 0 = 0 := by
  have hskip := estimates_skip seqs cs i method count_min h
  unfold runEstimates
  obtain ⟨h1, h2⟩ := runEstimates_foldl_skip seqs cs method count_min i hskip
    (List.range seqs.length)
    (List.replicate seqs.length 0, List.replicate seqs.length 0)
  exact ⟨h1.trans (getD_replicate_self _ _ _), h2.trans (getD_replicate_self _ _ _)⟩

/-- Claim C8 (amended): an output record whose candidate has length 1 or
count below `count_min` carries the default-initialised numeric value
`0.0` in its lambda and sigma columns — the code has no absence marker,
so a skipped record is numerically indistinguishable from a scored one
whose statistic happens to be 0 — while its collocation, count and
length columns are emitted normally. -/
theorem skipped_record_defaults (texts : List (List ℕ)) (count_min : ℕ)
    (len_min len_max : ℕ) (method : String) (nested : Bool) (i : ℕ)
    (h : (((corpusCounts texts len_min len_max nested).map Prod.fst).getD i []).length = 1
      ∨ ((corpusCounts texts len_min len_max nested).map (fun p => (p.2 : ℤ))).getD i 0
          < (count_min : ℤ)) :
    (qatd_cpp_sequences texts count_min len_min len_max method nested).lambda.getD i 0 = 0
    ∧ (qatd_cpp_sequences texts count_min len_min len_max method nested).sigma.getD i 0 = 0
    ∧ (qatd_cpp_sequences texts count_min len_min len_max method nested).collocation
        = (corpusCounts texts len_min len_max nested).map Prod.fst
    ∧ (qatd_cpp_sequences texts count_min len_min len_max method nested).count
        = (corpusCounts texts len_min len_max nested).map (fun p => (p.2 : ℤ))
    ∧ (qatd_cpp_sequences texts count_min len_min len_max method nested).length
        = (corpusCounts texts len_min len_max nested).map (fun p => p.1.length) := by
  have hs := runEstimates_skip ((corpusCounts texts len_min len_max nested).map Prod.fst)
    ((corpusCounts texts len_min len_max nested).map (fun p => (p.2 : ℤ))) method
    (count_min : ℤ) i h
  exact ⟨hs.2, hs.1, rfl, rfl, rfl⟩

/-- Witness for `skipped_record_defaults` on corpus `[[5,0]]` with
`count_min = 5`: the single candidate `[5]` has length 1. -/
theorem skipped_record_defaults_witness :
    ((((corpusCounts [[5, 0]] 1 2 true).map Prod.fst).getD 0 []).length = 1
      ∨ ((corpusCounts [[5, 0]] 1 2 true).map (fun p => (p.2 : ℤ))).getD 0 0 < ((5 : ℕ) : ℤ))
    ∧ (qatd_cpp_sequences [[5, 0]] 5 1 2 "unigram" true).lambda.getD 0 0 = 0
    ∧ (qatd_cpp_sequences [[5, 0]] 5 1 2 "unigram" true).sigma.getD 0 0 = 0 :=
  ⟨by decide,
    (skipped_record_defaults [[5, 0]] 5 1 2 "unigram" true 0 (by decide)).1,
    (skipped_record_defaults [[5, 0]] 5 1 2 "unigram" true 0 (by decide)).2.1⟩

/-- Claim C8 counterexample: on corpus `[[5,0]]` with `count_min = 5`
the sole record, for the single word `[5]`, is emitted with the numeric
value `0.0` — not an absent or undefined value; `double` columns in the
code are zero-initialised and skipped slots are simply never written. -/
theorem skipped_record_numeric_counterexample :
    (qatd_cpp_sequences [[5, 0]] 5 1 2 "unigram" true).collocation = [[5]]
    ∧ (qatd_cpp_sequences [[5, 0]] 5 1 2 "unigram" true).lambda = [(0 : ℝ)]
    ∧ (qatd_cpp_sequences [[5, 0]] 5 1 2 "unigram" true).sigma = [(0 : ℝ)] :=
  ⟨rfl, rfl, rfl⟩

end Quanteda
